import Mathlib

/-!
Verification of the RAG-Project repository.

Part 1 embeds the concrete source files:
  * `src/lib/pinecone.ts` (`initPinecone` with its module-level
    `initialized` flag),
  * `src/lib/loadDocs.ts` (`loadLocalDocuments`),
  * `src/app/api/chat/rag/route.ts` (`POST` handler), and
  * the unnamed route handler (`src/unnamed/part_001`, `POST`).

Part 2 models the agent run loop (turn limit, guardrails, tool approval
flow, interruptions, RunState serialization) from the specification,
since only its documentation ships with the repository.
-/

namespace Rag

/-- A LangChain `Document`: `pageContent` plus the `source` metadata field
used by `loadDocs.ts`. -/
structure Document where
  pageContent : String
  metadataSource : String
deriving DecidableEq, Repr

/-- A file in the `documents` directory, as seen by `fs.readdirSync`
(name) and `fs.readFileSync` (content). -/
structure FileEntry where
  name : String
  content : String
deriving DecidableEq, Repr

/-- Split a character list at every `.`; always returns at least one
part, one more part per dot. -/
def splitOnDot : List Char → List (List Char)
  | [] => [[]]
  | c :: r =>
    match splitOnDot r with
    | [] => [[c]]
    | p :: ps => if c = '.' then [] :: p :: ps else (c :: p) :: ps

/-- Node's `path.extname` on a bare file name (no directory separators):
the substring from the last `.` to the end, except that a leading dot of
a dotfile does not start an extension and a name without a dot has no
extension. -/
def extname (s : String) : String :=
  let parts := splitOnDot s.data
  if parts.length ≤ 1 then ""
  else if parts.head? = some [] ∧ parts.length = 2 then ""
  else "." ++ String.mk (parts.getLast?.getD [])

/-- The extension filter of `loadDocs.ts`:
`['.txt', '.md'].includes(ext)`. -/
def isSupportedExt (ext : String) : Bool :=
  ext == ".txt" || ext == ".md"

/-- The `for (const file of files)` loop body of `loadLocalDocuments`,
with `allDocs` as the accumulator. `split` stands for
`RecursiveCharacterTextSplitter.createDocuments` restricted to one input
text: it cuts a text into chunk strings, and every produced document
carries `{ source: file }` as metadata. -/
def loadLoop (split : String → List String) :
    List FileEntry → List Document → List Document
  | [], acc => acc
  | f :: rest, acc =>
    if isSupportedExt (extname f.name) then
      loadLoop split rest
        (acc ++ (split f.content).map fun c => ⟨c, f.name⟩)
    else
      loadLoop split rest acc

/-- `loadLocalDocuments` from `src/lib/loadDocs.ts`: read the directory
listing, keep `.txt`/`.md` files, split each file's content and tag every
chunk with the file name as `metadata.source`. -/
def loadLocalDocuments (split : String → List String)
    (files : List FileEntry) : List Document :=
  loadLoop split files []

/-- The documents contributed by a single directory entry. -/
def docsOfFile (split : String → List String) (f : FileEntry) :
    List Document :=
  if isSupportedExt (extname f.name) then
    (split f.content).map fun c => ⟨c, f.name⟩
  else []

/-- A JavaScript string-or-undefined value, as destructured by
`const { query } = await req.json()`. -/
def JsStr := Option String

/-- JavaScript truthiness of a string-or-undefined value: `undefined`
and the empty string are falsy, every other string is truthy. -/
def truthy : JsStr → Bool
  | none => false
  | some s => !(s == "")

/-- Template-literal interpolation `${query}`: `undefined` renders as
the text `undefined`. -/
def jsToString : JsStr → String
  | none => "undefined"
  | some s => s

/-- A chat message passed to `llm.invoke` in the unnamed route handler
(`SystemMessage` / `HumanMessage`). -/
inductive ChatMsg where
  | system (content : String)
  | human (content : String)
deriving DecidableEq, Repr

/-- One observable call to an external collaborator made while handling
a request. -/
inductive RagEffect where
  | embedCall (query : JsStr)
  | upsertDocs (count : Nat)
  | vectorSearch
  | llmInvoke (msgs : List ChatMsg)
  | llmPrompt (prompt : String)

/-- Does the effect invoke the chat model? -/
def RagEffect.isModelCall : RagEffect → Bool
  | .llmInvoke _ => true
  | .llmPrompt _ => true
  | _ => false

/-- The external collaborators of the two route handlers, over an
abstract embedding-vector type `E`: `embedQuery`, the vector-store
lookups (`getRelevantDocs` for `route.ts`,
`similaritySearchVectorWithScore` over a store freshly built from `docs`
for the unnamed handler), and the chat model (`llm.invoke` /
`getLLMResponse`). -/
structure RagDeps (E : Type) where
  embedQuery : JsStr → E
  getRelevantDocs : E → List Document
  similaritySearch : List Document → E → Nat → List Document
  llmInvoke : List ChatMsg → String
  getLLMResponse : String → String

/-- The JSON body a handler returns: either `{ error: msg }` or
`{ choices: [{ message: { role: 'assistant', content } }] }`. -/
inductive RagBody where
  | errorBody (msg : String)
  | choicesBody (content : String)
deriving DecidableEq, Repr

/-- A handler's outcome: HTTP status, response body, and the external
calls performed, in order. -/
structure RagResult where
  status : Nat
  body : RagBody
  effects : List RagEffect

/-- The parsed JSON request body. -/
structure ReqBody where
  query : JsStr

/-- The `POST` handler of the unnamed route (`src/unnamed/part_001`):
reject falsy queries with a 400 before touching any external service;
otherwise load and upsert the local documents, embed the query, run the
similarity search with `k = 4`, join the page contents with blank lines,
and invoke the chat model on a system message plus the prompt template. -/
def postUnnamedRoute {E : Type} (deps : RagDeps E)
    (split : String → List String) (files : List FileEntry)
    (body : ReqBody) : RagResult :=
  if truthy body.query = false then
    { status := 400, body := .errorBody "Missing query", effects := [] }
  else
    let docs := loadLocalDocuments split files
    let embeddedQuery := deps.embedQuery body.query
    let results := deps.similaritySearch docs embeddedQuery 4
    let context := String.intercalate "\n\n" (results.map Document.pageContent)
    let prompt := "Context:\n" ++ context ++ "\n\nQ: " ++
      jsToString body.query ++ "\nA:"
    let msgs := [ChatMsg.system "You are a helpful assistant.",
      ChatMsg.human prompt]
    let answer := deps.llmInvoke msgs
    { status := 200, body := .choicesBody answer,
      effects := [.upsertDocs docs.length, .embedCall body.query,
        .vectorSearch, .llmInvoke msgs] }

/-- The `POST` handler of `src/app/api/chat/rag/route.ts`: no validation
of the body; embed the query (even when absent), fetch the relevant
documents, join their page contents with newlines, and ask the model for
the answer. -/
def postRagRoute {E : Type} (deps : RagDeps E) (body : ReqBody) :
    RagResult :=
  let embedded := deps.embedQuery body.query
  let docs := deps.getRelevantDocs embedded
  let context := String.intercalate "\n" (docs.map Document.pageContent)
  let prompt := "Context:\n" ++ context ++ "\n\nQ: " ++
    jsToString body.query ++ "\nA:"
  let answer := deps.getLLMResponse prompt
  { status := 200, body := .choicesBody answer,
    effects := [.embedCall body.query, .vectorSearch, .llmPrompt prompt] }

/-- Number of chat-model invocations a handler performed. -/
def modelCallCount (r : RagResult) : Nat :=
  r.effects.countP fun e => e.isModelCall

/-- A trivial instantiation of the external collaborators, used to
evaluate the handlers on concrete requests. -/
def demoDeps : RagDeps Nat where
  embedQuery := fun _ => 0
  getRelevantDocs := fun _ => []
  similaritySearch := fun _ _ _ => []
  llmInvoke := fun _ => "ok"
  getLLMResponse := fun _ => "ok"

/-- A trivial splitter: one chunk per file. -/
def demoSplit : String → List String := fun s => [s]

end Rag

namespace Pine

/-- The module state of `src/lib/pinecone.ts`: the `initialized` flag,
plus a count of how many times `pinecone.init` has actually been
invoked (an observation, not program state). -/
structure PineconeState where
  initialized : Bool
  initCalls : Nat
deriving DecidableEq, Repr

/-- The relevant environment variables. -/
structure PineEnv where
  indexName : String

/-- Module state at load time: `let initialized = false`. -/
def initialState : PineconeState := ⟨false, 0⟩

/-- `initPinecone`: call `pinecone.init` only when the module-level
`initialized` flag is still false, set the flag, and return the index
named by `PINECONE_INDEX_NAME`. -/
def initPinecone (env : PineEnv) (st : PineconeState) :
    PineconeState × String :=
  if st.initialized then (st, env.indexName)
  else ({ initialized := true, initCalls := st.initCalls + 1 },
    env.indexName)

/-- State after `n` successive calls to `initPinecone`. -/
def iterInit (env : PineEnv) : Nat → PineconeState
  | 0 => initialState
  | n + 1 => (initPinecone env (iterInit env n)).1

end Pine

namespace Loop

/-- Modelled from the spec: a tool call requested by the model, with the
stable call identifier that keys approval decisions (the SDK's run-loop
implementation is not part of this repository; only its documentation
in `src/unnamed/part_000` is). -/
structure ToolCall where
  callId : String
  name : String
  arguments : String
deriving DecidableEq, Repr

/-- Modelled from the spec: the classification of a model response —
final content, one or more tool calls, or a handoff invocation. -/
inductive ModelResponse where
  | message (content : String)
  | toolCalls (calls : List ToolCall)
  | handoff (target : String)

/-- Modelled from the spec: a tool — name, approval predicate over the
parsed arguments, and execution function. -/
structure ToolDef where
  name : String
  needsApproval : String → Bool
  execute : String → String

/-- Modelled from the spec: an agent — name, instructions, tools,
allowed handoff targets, output contract, and the two guardrail
pipelines (each guardrail is its tripwire predicate). -/
structure Agent where
  name : String
  instructions : String
  tools : List ToolDef
  handoffTargets : List String
  validateOutput : String → Bool
  inputGuardrails : List (String → Bool)
  outputGuardrails : List (String → Bool)

/-- Modelled from the spec: a conversation item. -/
inductive Item where
  | userMessage (content : String)
  | assistantMessage (content : String)
  | toolCallItem (call : ToolCall)
  | toolResult (callId : String) (output : String)
  | handoffCall (source : String) (target : String)
deriving DecidableEq, Repr

/-- Modelled from the spec: the serializable snapshot of a run —
original input, accumulated history, current agent, turn count,
pending approval decisions keyed by call id, and the interruptions
awaiting a decision. -/
structure RunState where
  originalInput : String
  currentAgent : String
  turnCount : Nat
  history : List Item
  decisions : List (String × Bool)
  pendingInterruptions : List ToolCall
deriving DecidableEq, Repr

/-- Record an approval decision (`state.approve` / `state.reject`). -/
def RunState.decide (st : RunState) (callId : String) (granted : Bool) :
    RunState :=
  { st with decisions := (callId, granted) :: st.decisions }

/-- Observable steps of the run loop, in execution order. -/
inductive Event where
  | guardrailCheck (idx : Nat)
  | modelCall (turn : Nat)
  | approvalEval (callId : String)
  | toolExecute (callId : String) (toolName : String)
  | interruptionCreated (callId : String)
deriving DecidableEq, Repr

def Event.isGuardrailCheck : Event → Bool
  | .guardrailCheck _ => true
  | _ => false

def Event.isModelCall : Event → Bool
  | .modelCall _ => true
  | _ => false

def Event.isApprovalEval : Event → Bool
  | .approvalEval _ => true
  | _ => false

def Event.isToolExecute : Event → Bool
  | .toolExecute _ _ => true
  | _ => false

/-- Is this event the execution of the call with identifier `id`? -/
def Event.execOf (id : String) : Event → Bool
  | .toolExecute i _ => i == id
  | _ => false

/-- Number of model invocations recorded in a trace. -/
def modelCalls (evs : List Event) : Nat :=
  evs.countP fun e => e.isModelCall

/-- Modelled from the spec: how a run ends (or suspends). -/
inductive RunOutcome where
  | finalOutput (content : String)
  | interrupted (pending : List ToolCall)
  | maxTurnsExceeded
  | inputGuardrailTripped
  | outputGuardrailTripped
  | modelBehaviorError
  | stuck
deriving DecidableEq, Repr

/-- Modelled from the spec: the run configuration — the known agents,
the turn limit (default 10), and the model provider, as a deterministic
function of the run state it is invoked on. -/
structure RunConfig where
  agents : List Agent
  maxTurns : Nat
  model : RunState → ModelResponse

def findAgent (cfg : RunConfig) (agentName : String) : Option Agent :=
  cfg.agents.find? fun a => a.name == agentName

def lookupDecision (st : RunState) (callId : String) : Option Bool :=
  st.decisions.lookup callId

/-- Modelled from the spec: the per-call approval evaluation — unknown
tool, interruption required (approval needed and no decision recorded),
rejected, or executable. -/
inductive CallPlan where
  | needsInterrupt (c : ToolCall)
  | rejectedCall (c : ToolCall)
  | execCall (c : ToolCall) (t : ToolDef)
  | unknownTool (c : ToolCall)

def planCall (ag : Agent) (st : RunState) (c : ToolCall) : CallPlan :=
  match ag.tools.find? (fun t => t.name == c.name) with
  | none => .unknownTool c
  | some t =>
    if t.needsApproval c.arguments then
      match lookupDecision st c.callId with
      | none => .needsInterrupt c
      | some true => .execCall c t
      | some false => .rejectedCall c
    else .execCall c t

def CallPlan.isUnknown : CallPlan → Bool
  | .unknownTool _ => true
  | _ => false

/-- Does the approval evaluation of `c` produce a new interruption? -/
def requiresInterrupt (ag : Agent) (st : RunState) (c : ToolCall) :
    Bool :=
  match planCall ag st c with
  | .needsInterrupt _ => true
  | _ => false

/-- The interruptions created by a batch of evaluated calls, in request
order. -/
def planInterrupts : List CallPlan → List ToolCall
  | [] => []
  | .needsInterrupt c :: r => c :: planInterrupts r
  | _ :: r => planInterrupts r

/-- The message appended for a rejected tool call. -/
def rejectedMessage : String := "Tool execution was not approved."

/-- The items appended to history by a batch of evaluated calls: results
are serialized back in the order the calls were requested. -/
def planHistory : List CallPlan → List Item
  | [] => []
  | .needsInterrupt _ :: r => planHistory r
  | .rejectedCall c :: r =>
    .toolCallItem c :: .toolResult c.callId rejectedMessage :: planHistory r
  | .execCall c t :: r =>
    .toolCallItem c :: .toolResult c.callId (t.execute c.arguments) ::
      planHistory r
  | .unknownTool _ :: r => planHistory r

/-- The events emitted while acting on a batch of evaluated calls. -/
def planEvents : List CallPlan → List Event
  | [] => []
  | .needsInterrupt c :: r => .interruptionCreated c.callId :: planEvents r
  | .rejectedCall _ :: r => planEvents r
  | .execCall c t :: r => .toolExecute c.callId t.name :: planEvents r
  | .unknownTool _ :: r => planEvents r

/-- Result of one loop iteration: the run finishes (or suspends), or
proceeds to the next turn. -/
inductive StepResult where
  | finished (out : RunOutcome) (st : RunState) (evs : List Event)
  | nextTurn (st : RunState) (evs : List Event)

/-- Modelled from the spec: one iteration of the run loop. Increment the
turn counter and fail with `maxTurnsExceeded` once it exceeds the limit;
on the first turn only, run the input guardrails before the model call,
tripping `inputGuardrailTripped`; call the model; then classify the
response: a content message is validated against the output contract and
the output guardrails; a handoff switches the current agent and
continues; tool calls are all evaluated for approval first, after which
the executable ones run in request order and any newly created
interruptions suspend the run with no further model call that turn. -/
def stepTurn (cfg : RunConfig) (st : RunState) : StepResult :=
  let t := st.turnCount + 1
  if t > cfg.maxTurns then
    .finished .maxTurnsExceeded { st with turnCount := t } []
  else
    let st1 := { st with turnCount := t }
    match findAgent cfg st.currentAgent with
    | none => .finished .modelBehaviorError st1 []
    | some ag =>
      let gevs := if t = 1 then
          (List.range ag.inputGuardrails.length).map Event.guardrailCheck
        else []
      if t = 1 ∧ (ag.inputGuardrails.any fun g => g st.originalInput) then
        .finished .inputGuardrailTripped st1 gevs
      else
        let evs0 := gevs ++ [Event.modelCall t]
        match cfg.model st1 with
        | .message content =>
          if ag.validateOutput content then
            if ag.outputGuardrails.any fun g => g content then
              .finished .outputGuardrailTripped st1 evs0
            else
              .finished (.finalOutput content)
                { st1 with history := st.history ++
                    [.assistantMessage content] } evs0
          else .finished .modelBehaviorError st1 evs0
        | .handoff target =>
          if ag.handoffTargets.contains target ∧
              (findAgent cfg target).isSome then
            .nextTurn
              { st1 with
                  currentAgent := target
                  history := st.history ++
                    [.handoffCall st.currentAgent target] } evs0
          else .finished .modelBehaviorError st1 evs0
        | .toolCalls calls =>
          let plans := calls.map (planCall ag st1)
          let evs1 := evs0 ++ calls.map fun c => Event.approvalEval c.callId
          if plans.any CallPlan.isUnknown then
            .finished .modelBehaviorError st1 evs1
          else
            let st2 := { st1 with history := st.history ++ planHistory plans }
            let ints := planInterrupts plans
            if ints.isEmpty then
              .nextTurn st2 (evs1 ++ planEvents plans)
            else
              .finished (.interrupted ints)
                { st2 with pendingInterruptions := ints }
                (evs1 ++ planEvents plans)

/-- Modelled from the spec: the run loop driver, iterating `stepTurn`.
The fuel argument only makes the recursion structural; `runFromState`
supplies enough fuel that the turn-limit check always fires first. -/
def loop (cfg : RunConfig) : Nat → RunState → RunOutcome × RunState × List Event
  | 0, st => (.stuck, st, [])
  | fuel + 1, st =>
    match stepTurn cfg st with
    | .finished out st1 evs => (out, st1, evs)
    | .nextTurn st1 evs =>
      let r := loop cfg fuel st1
      (r.1, r.2.1, evs ++ r.2.2)

/-- Modelled from the spec: resolving the pending interruptions of a
resumed state — every pending call is re-evaluated against the recorded
decisions; approved calls execute and append their results, rejected
ones append the static refusal, undecided ones stay pending. -/
def resolveStep (ag : Agent) (st : RunState) :
    RunState × List Event × List ToolCall :=
  let plans := st.pendingInterruptions.map (planCall ag st)
  let ints := planInterrupts plans
  ({ st with
      history := st.history ++ planHistory plans
      pendingInterruptions := ints },
    (st.pendingInterruptions.map fun c => Event.approvalEval c.callId) ++
      planEvents plans,
    ints)

/-- Modelled from the spec: the primary entry point on a state. First
resolve any pending interruptions; if some remain undecided, suspend
again without calling the model; otherwise run the turn loop. -/
def runFromState (cfg : RunConfig) (st : RunState) :
    RunOutcome × RunState × List Event :=
  match findAgent cfg st.currentAgent with
  | none => (.modelBehaviorError, st, [])
  | some ag =>
    let r := resolveStep ag st
    if r.2.2.isEmpty then
      let l := loop cfg (cfg.maxTurns + 1 - r.1.turnCount) r.1
      (l.1, l.2.1, r.2.1 ++ l.2.2)
    else (.interrupted r.2.2, r.1, r.2.1)

/-- The initial state of a fresh run on a user utterance. -/
def initialRunState (agentName input : String) : RunState :=
  { originalInput := input, currentAgent := agentName, turnCount := 0,
    history := [.userMessage input], decisions := [],
    pendingInterruptions := [] }

/-- Modelled from the spec: run an agent on a single user utterance. -/
def runAgent (cfg : RunConfig) (agentName input : String) :
    RunOutcome × RunState × List Event :=
  runFromState cfg (initialRunState agentName input)

/-! ### RunState serialization

Modelled from the spec: `RunState` must serialize to and deserialize
from a structured, versioned text form (`JSON.stringify(result.state)` /
`RunState.fromString`); the implementation is not part of this
repository. The format below is length-prefixed: every number is written
in decimal followed by `:`, every string as its length followed by its
characters, every list as its length followed by its encoded elements,
and the whole state carries the version tag `RS1`. -/

def digitVal (c : Char) : Nat := c.toNat - 48

def charsValAux : Nat → List Char → Nat
  | acc, [] => acc
  | acc, c :: r => charsValAux (acc * 10 + digitVal c) r

/-- Decimal value of a digit string, most significant digit first. -/
def charsVal (cs : List Char) : Nat := charsValAux 0 cs

/-- Decimal digits of `n`, most significant first (empty for `0`). -/
def natChars (n : Nat) : List Char :=
  ((Nat.digits 10 n).map fun d => Char.ofNat (48 + d)).reverse

def encNat (n : Nat) : List Char := if n = 0 then ['0'] else natChars n

def decNat (cs : List Char) : Option (Nat × List Char) :=
  let ds := cs.takeWhile Char.isDigit
  if ds.isEmpty then none
  else some (charsVal ds, cs.dropWhile Char.isDigit)

/-- A number field: decimal digits terminated by `:`. -/
def encNatD (n : Nat) : List Char := encNat n ++ [':']

def decNatD (cs : List Char) : Option (Nat × List Char) :=
  match decNat cs with
  | some (n, ':' :: r) => some (n, r)
  | _ => none

/-- A string field: character count, then the characters themselves. -/
def encStr (s : String) : List Char := encNatD s.data.length ++ s.data

def decStr (cs : List Char) : Option (String × List Char) :=
  match decNatD cs with
  | none => none
  | some (n, r) =>
    if n ≤ r.length then some (String.mk (r.take n), r.drop n) else none

def encBoolC (b : Bool) : List Char := [if b then 'T' else 'F']

def decBoolC : List Char → Option (Bool × List Char)
  | 'T' :: r => some (true, r)
  | 'F' :: r => some (false, r)
  | _ => none

/-- A list field: element count, then the encoded elements. -/
def encListC {α : Type} (enc : α → List Char) (l : List α) : List Char :=
  encNatD l.length ++ (l.map enc).flatten

def decListN {α : Type} (dec : List Char → Option (α × List Char)) :
    Nat → List Char → Option (List α × List Char)
  | 0, cs => some ([], cs)
  | n + 1, cs =>
    match dec cs with
    | none => none
    | some (a, r) =>
      match decListN dec n r with
      | none => none
      | some (as, r2) => some (a :: as, r2)

def decListC {α : Type} (dec : List Char → Option (α × List Char))
    (cs : List Char) : Option (List α × List Char) :=
  match decNatD cs with
  | none => none
  | some (n, r) => decListN dec n r

def encToolCall (c : ToolCall) : List Char :=
  encStr c.callId ++ encStr c.name ++ encStr c.arguments

def decToolCall (cs : List Char) : Option (ToolCall × List Char) := do
  let (id, r1) ← decStr cs
  let (nm, r2) ← decStr r1
  let (args, r3) ← decStr r2
  pure (⟨id, nm, args⟩, r3)

def encItem : Item → List Char
  | .userMessage s => 'U' :: encStr s
  | .assistantMessage s => 'A' :: encStr s
  | .toolCallItem c => 'C' :: encToolCall c
  | .toolResult id out => 'R' :: (encStr id ++ encStr out)
  | .handoffCall a b => 'H' :: (encStr a ++ encStr b)

def decItem : List Char → Option (Item × List Char)
  | 'U' :: r => do
    let (s, r1) ← decStr r
    pure (.userMessage s, r1)
  | 'A' :: r => do
    let (s, r1) ← decStr r
    pure (.assistantMessage s, r1)
  | 'C' :: r => do
    let (c, r1) ← decToolCall r
    pure (.toolCallItem c, r1)
  | 'R' :: r => do
    let (id, r1) ← decStr r
    let (out, r2) ← decStr r1
    pure (.toolResult id out, r2)
  | 'H' :: r => do
    let (a, r1) ← decStr r
    let (b, r2) ← decStr r1
    pure (.handoffCall a b, r2)
  | _ => none

def encDecision (p : String × Bool) : List Char :=
  encStr p.1 ++ encBoolC p.2

def decDecision (cs : List Char) : Option ((String × Bool) × List Char) := do
  let (id, r1) ← decStr cs
  let (b, r2) ← decBoolC r1
  pure ((id, b), r2)

def encRunState (st : RunState) : List Char :=
  encStr st.originalInput ++ encStr st.currentAgent ++
    encNatD st.turnCount ++ encListC encItem st.history ++
    encListC encDecision st.decisions ++
    encListC encToolCall st.pendingInterruptions

def decRunState (cs : List Char) : Option (RunState × List Char) := do
  let (oi, r1) ← decStr cs
  let (ca, r2) ← decStr r1
  let (tc, r3) ← decNatD r2
  let (hist, r4) ← decListC decItem r3
  let (decs, r5) ← decListC decDecision r4
  let (pend, r6) ← decListC decToolCall r5
  pure (⟨oi, ca, tc, hist, decs, pend⟩, r6)

/-- `JSON.stringify(result.state)`, modelled: the versioned textual form
of a `RunState`. -/
def serialize (st : RunState) : String :=
  String.mk ('R' :: 'S' :: '1' :: encRunState st)

/-- `RunState.fromString`, modelled: parse the versioned textual form,
rejecting any string that is not exactly a serialized state. -/
def deserialize (s : String) : Option RunState :=
  match s.data with
  | 'R' :: 'S' :: '1' :: r =>
    match decRunState r with
    | some (st, []) => some st
    | _ => none
  | _ => none

/-- The output the agent's tool produces for a call (empty for an
unknown tool; only used under a known-tool hypothesis). -/
def toolOutput (ag : Agent) (c : ToolCall) : String :=
  match ag.tools.find? fun t => t.name == c.name with
  | some t => t.execute c.arguments
  | none => ""

/-- The resolved name of the tool a call refers to. -/
def toolNameOf (ag : Agent) (c : ToolCall) : String :=
  match ag.tools.find? fun t => t.name == c.name with
  | some t => t.name
  | none => ""

/-- Did the approval evaluation clear the call for execution? -/
def CallPlan.isExec : CallPlan → Bool
  | .execCall _ _ => true
  | _ => false

/-- The two history items a single executed call appends. -/
def execItems (ag : Agent) (c : ToolCall) : List Item :=
  [.toolCallItem c, .toolResult c.callId (toolOutput ag c)]

/-- The state left behind once every pending interruption of `st` has
been approved and executed. -/
def resolvedState (ag : Agent) (st : RunState) : RunState :=
  { st with
      history := st.history ++
        ((st.pendingInterruptions.map (execItems ag)).flatten)
      pendingInterruptions := [] }

/-- The events a loop iteration emitted. -/
def StepResult.events : StepResult → List Event
  | .finished _ _ evs => evs
  | .nextTurn _ evs => evs

/-- A tool whose use always requires approval. -/
def demoTool : ToolDef where
  name := "t"
  needsApproval := fun _ => true
  execute := fun s => s

/-- A tool that never requires approval. -/
def demoToolFree : ToolDef where
  name := "f"
  needsApproval := fun _ => false
  execute := fun s => s

/-- A concrete agent with both demo tools and no guardrails. -/
def demoAgent : Agent where
  name := "a"
  instructions := "i"
  tools := [demoTool, demoToolFree]
  handoffTargets := []
  validateOutput := fun _ => true
  inputGuardrails := []
  outputGuardrails := []

/-- A call to the approval-requiring tool. -/
def demoCall : ToolCall := ⟨"c1", "t", "x"⟩

/-- A call to the approval-free tool. -/
def demoCallFree : ToolCall := ⟨"c2", "f", "y"⟩

/-- A run whose model immediately answers with plain text. -/
def demoCfgMsg : RunConfig where
  agents := [demoAgent]
  maxTurns := 10
  model := fun _ => .message "hi"

/-- A run whose model always asks for one approval-free tool call. -/
def demoCfgSpin : RunConfig where
  agents := [demoAgent]
  maxTurns := 2
  model := fun _ => .toolCalls [demoCallFree]

/-- A run whose first response carries two tool calls, one needing
approval. -/
def demoCfgMixed : RunConfig where
  agents := [demoAgent]
  maxTurns := 10
  model := fun _ => .toolCalls [demoCall, demoCallFree]

/-- A run used for resumption: the model then answers with plain
text. -/
def demoCfgResume : RunConfig where
  agents := [demoAgent]
  maxTurns := 10
  model := fun _ => .message "done"

/-- An agent with one input guardrail that trips on the input "bad". -/
def demoGuardAgent : Agent where
  name := "g"
  instructions := "i"
  tools := []
  handoffTargets := []
  validateOutput := fun _ => true
  inputGuardrails := [fun s => s == "bad"]
  outputGuardrails := []

/-- A run over the guarded agent. -/
def demoCfgGuard : RunConfig where
  agents := [demoGuardAgent]
  maxTurns := 10
  model := fun _ => .message "hi"

/-- A suspended state whose single pending interruption has been
approved. -/
def demoSuspended : RunState where
  originalInput := "in"
  currentAgent := "a"
  turnCount := 1
  history := [.userMessage "in", .toolCallItem demoCall]
  decisions := [("c1", true)]
  pendingInterruptions := [demoCall]

end Loop

/-! ## Theorems -/

namespace Rag

theorem loadLoop_acc (split : String → List String) :
    ∀ (files : List FileEntry) (acc : List Document),
      loadLoop split files acc = acc ++ loadLoop split files [] := by
  intro files
  induction files with
  | nil => intro acc; simp [loadLoop]
  | cons f rest ih =>
    intro acc
    simp only [loadLoop]
    by_cases h : isSupportedExt (extname f.name) = true
    · have hdocs := ih ((split f.content).map fun c => Document.mk c f.name)
      rw [if_pos h, if_pos h, List.nil_append, ih, hdocs]
      simp [List.append_assoc]
    · rw [if_neg h, if_neg h, ih]

/-- `loadLocalDocuments` is the concatenation, in directory-listing
order, of each supported file's chunk documents. -/
theorem loadLocalDocuments_eq_flatten (split : String → List String)
    (files : List FileEntry) :
    loadLocalDocuments split files =
      (files.map (docsOfFile split)).flatten := by
  induction files with
  | nil => simp [loadLocalDocuments, loadLoop]
  | cons f rest ih =>
    show loadLoop split (f :: rest) [] = _
    simp only [loadLoop]
    by_cases h : isSupportedExt (extname f.name) = true
    · rw [if_pos h, loadLoop_acc]
      simp only [List.map_cons, List.flatten_cons, List.nil_append]
      rw [← ih]
      simp [docsOfFile, h, loadLocalDocuments]
    · rw [if_neg h]
      simp only [List.map_cons, List.flatten_cons]
      rw [← ih]
      simp [docsOfFile, h, loadLocalDocuments]

end Rag

namespace Loop

theorem charsValAux_nil (acc : Nat) : charsValAux acc [] = acc := rfl

theorem charsValAux_cons (acc : Nat) (c : Char) (r : List Char) :
    charsValAux acc (c :: r) = charsValAux (acc * 10 + digitVal c) r := rfl

theorem charsValAux_append (l1 l2 : List Char) :
    ∀ acc, charsValAux acc (l1 ++ l2) =
      charsValAux (charsValAux acc l1) l2 := by
  induction l1 with
  | nil => intro acc; rfl
  | cons c r ih =>
    intro acc
    show charsValAux (acc * 10 + digitVal c) (r ++ l2) =
      charsValAux (charsValAux (acc * 10 + digitVal c) r) l2
    exact ih (acc * 10 + digitVal c)

theorem digitVal_ofNat (d : Nat) (h : d < 10) :
    digitVal (Char.ofNat (48 + d)) = d := by
  interval_cases d <;> decide

theorem isDigit_ofNat (d : Nat) (h : d < 10) :
    (Char.ofNat (48 + d)).isDigit = true := by
  interval_cases d <;> decide

theorem charsValAux_natChars (n : Nat) :
    ∀ acc, charsValAux acc (natChars n) =
      acc * 10 ^ (Nat.digits 10 n).length + n := by
  induction n using Nat.strong_induction_on with
  | _ n ih =>
    intro acc
    rcases Nat.eq_zero_or_pos n with h0 | hp
    · subst h0
      simp [natChars, charsValAux_nil]
    · have hlt : n / 10 < n := Nat.div_lt_self hp (by norm_num)
      have hdig := Nat.digits_def' (by norm_num : 1 < 10) hp
      simp only [natChars, hdig, List.map_cons, List.reverse_cons]
      rw [charsValAux_append]
      have hrec := ih (n / 10) hlt acc
      simp only [natChars] at hrec
      rw [hrec]
      simp only [charsValAux_cons, charsValAux_nil]
      rw [digitVal_ofNat (n % 10) (Nat.mod_lt n (by norm_num))]
      have hdm : 10 * (n / 10) + n % 10 = n := Nat.div_add_mod n 10
      simp only [List.length_cons, pow_succ]
      ring_nf
      omega

theorem charsVal_encNat (n : Nat) : charsVal (encNat n) = n := by
  unfold encNat
  by_cases h0 : n = 0
  · subst h0; decide
  · rw [if_neg h0]
    have := charsValAux_natChars n 0
    simpa [charsVal] using this

theorem encNat_all_digits (n : Nat) :
    ∀ c ∈ encNat n, c.isDigit = true := by
  intro c hc
  unfold encNat at hc
  by_cases h0 : n = 0
  · subst h0; simp at hc; subst hc; decide
  · rw [if_neg h0] at hc
    simp only [natChars, List.mem_reverse, List.mem_map] at hc
    obtain ⟨d, hd, rfl⟩ := hc
    exact isDigit_ofNat d (Nat.digits_lt_base (by norm_num) hd)

theorem encNat_ne_nil (n : Nat) : encNat n ≠ [] := by
  unfold encNat
  by_cases h0 : n = 0
  · subst h0; simp
  · rw [if_neg h0]
    simp [natChars, Nat.digits_ne_nil_iff_ne_zero, h0]

theorem takeWhile_append_stop (p : Char → Bool) (l1 : List Char)
    (c : Char) (l2 : List Char) (h1 : ∀ x ∈ l1, p x = true)
    (h2 : p c = false) :
    (l1 ++ c :: l2).takeWhile p = l1 ∧
      (l1 ++ c :: l2).dropWhile p = c :: l2 := by
  induction l1 with
  | nil => simp [List.takeWhile_cons, List.dropWhile_cons, h2]
  | cons a r ih =>
    have ha : p a = true := h1 a (by simp)
    have hr := ih fun x hx => h1 x (by simp [hx])
    simp [List.takeWhile_cons, List.dropWhile_cons, ha, hr.1, hr.2]

theorem decNatD_enc (n : Nat) (rest : List Char) :
    decNatD (encNatD n ++ rest) = some (n, rest) := by
  have hsplit := takeWhile_append_stop Char.isDigit (encNat n) ':' rest
    (encNat_all_digits n) (by decide)
  have hne : (encNat n).isEmpty = false := by
    cases h : encNat n with
    | nil => exact absurd h (encNat_ne_nil n)
    | cons a l => rfl
  have harr : encNatD n ++ rest = encNat n ++ ':' :: rest := by
    simp [encNatD]
  rw [harr]
  unfold decNatD decNat
  simp only [hsplit.1, hsplit.2, hne, Bool.false_eq_true, if_false,
    charsVal_encNat]

theorem decStr_enc (s : String) (rest : List Char) :
    decStr (encStr s ++ rest) = some (s, rest) := by
  unfold decStr encStr
  rw [List.append_assoc, decNatD_enc]
  have hle : s.data.length ≤ (s.data ++ rest).length := by simp
  dsimp only
  rw [if_pos hle, List.take_left, List.drop_left]

theorem decBoolC_enc (b : Bool) (rest : List Char) :
    decBoolC (encBoolC b ++ rest) = some (b, rest) := by
  cases b <;> rfl

theorem decToolCall_enc (c : ToolCall) (rest : List Char) :
    decToolCall (encToolCall c ++ rest) = some (c, rest) := by
  cases c with
  | mk id nm args =>
    simp [decToolCall, encToolCall, List.append_assoc, decStr_enc]

theorem decItem_enc (it : Item) (rest : List Char) :
    decItem (encItem it ++ rest) = some (it, rest) := by
  cases it <;>
    simp [decItem, encItem, List.append_assoc, decStr_enc, decToolCall_enc]

theorem decDecision_enc (p : String × Bool) (rest : List Char) :
    decDecision (encDecision p ++ rest) = some (p, rest) := by
  cases p with
  | mk s b =>
    simp [decDecision, encDecision, List.append_assoc, decStr_enc,
      decBoolC_enc]

theorem decListN_enc {α : Type} (enc : α → List Char)
    (dec : List Char → Option (α × List Char))
    (hdec : ∀ (a : α) (r : List Char), dec (enc a ++ r) = some (a, r)) :
    ∀ (l : List α) (rest : List Char),
      decListN dec l.length ((l.map enc).flatten ++ rest) =
        some (l, rest) := by
  intro l
  induction l with
  | nil => intro rest; simp [decListN]
  | cons a r ih =>
    intro rest
    simp [decListN, List.append_assoc, hdec, ih]

theorem decListC_enc {α : Type} (enc : α → List Char)
    (dec : List Char → Option (α × List Char))
    (hdec : ∀ (a : α) (r : List Char), dec (enc a ++ r) = some (a, r))
    (l : List α) (rest : List Char) :
    decListC dec (encListC enc l ++ rest) = some (l, rest) := by
  unfold decListC encListC
  rw [List.append_assoc, decNatD_enc]
  exact decListN_enc enc dec hdec l rest

theorem decRunState_enc (st : RunState) (rest : List Char) :
    decRunState (encRunState st ++ rest) = some (st, rest) := by
  cases st with
  | mk oi ca tc hist decs pend =>
    simp [decRunState, encRunState, List.append_assoc, decStr_enc,
      decNatD_enc, decListC_enc encItem decItem decItem_enc,
      decListC_enc encDecision decDecision decDecision_enc,
      decListC_enc encToolCall decToolCall decToolCall_enc]

theorem deserialize_serialize (st : RunState) :
    deserialize (serialize st) = some st := by
  unfold serialize deserialize
  have h := decRunState_enc st []
  rw [List.append_nil] at h
  simp [h]

theorem planCall_cases (ag : Agent) (st : RunState) (c : ToolCall) :
    planCall ag st c = .needsInterrupt c ∨
      planCall ag st c = .rejectedCall c ∨
      (∃ t, ag.tools.find? (fun t => t.name == c.name) = some t ∧
        planCall ag st c = .execCall c t) ∨
      planCall ag st c = .unknownTool c := by
  unfold planCall
  cases hf : ag.tools.find? fun t => t.name == c.name with
  | none => right; right; right; rfl
  | some t =>
    dsimp only
    by_cases hap : t.needsApproval c.arguments = true
    · rw [if_pos hap]
      cases hd : lookupDecision st c.callId with
      | none => left; rfl
      | some b =>
        cases b
        · right; left; rfl
        · right; right; left; exact ⟨t, rfl, rfl⟩
    · rw [if_neg hap]
      right; right; left; exact ⟨t, rfl, rfl⟩

theorem planCall_turnCount (ag : Agent) (st : RunState) (k : Nat)
    (c : ToolCall) :
    planCall ag { st with turnCount := k } c = planCall ag st c := rfl

theorem planCall_exec_findTool (ag : Agent) (st : RunState) (c : ToolCall)
    (t : ToolDef) (h : planCall ag st c = .execCall c t) :
    ag.tools.find? (fun t0 => t0.name == c.name) = some t := by
  rcases planCall_cases ag st c with h' | h' | ⟨t', hf, h'⟩ | h'
  · rw [h'] at h; simp at h
  · rw [h'] at h; simp at h
  · rw [h'] at h
    injection h with h1 h2
    rw [← h2]
    exact hf
  · rw [h'] at h; simp at h

theorem planInterrupts_map (ag : Agent) (st : RunState) :
    ∀ calls : List ToolCall,
      planInterrupts (calls.map (planCall ag st)) =
        calls.filter (requiresInterrupt ag st) := by
  intro calls
  induction calls with
  | nil => rfl
  | cons c r ih =>
    rcases planCall_cases ag st c with h | h | ⟨t, hf, h⟩ | h <;>
      simp [planInterrupts, List.filter_cons, requiresInterrupt, h, ih]

theorem planEvents_map_exec (ag : Agent) (st : RunState) :
    ∀ calls : List ToolCall,
      (∀ c ∈ calls, (planCall ag st c).isExec = true) →
      planEvents (calls.map (planCall ag st)) =
        calls.map fun c => Event.toolExecute c.callId (toolNameOf ag c) := by
  intro calls
  induction calls with
  | nil => intro _; rfl
  | cons c r ih =>
    intro h
    have hc := h c (by simp)
    rcases planCall_cases ag st c with h' | h' | ⟨t, hf, h'⟩ | h'
    · rw [h'] at hc; simp [CallPlan.isExec] at hc
    · rw [h'] at hc; simp [CallPlan.isExec] at hc
    · have hname : t.name = toolNameOf ag c := by
        unfold toolNameOf; rw [hf]
      simp only [List.map_cons, h', planEvents, hname,
        ih fun c2 hc2 => h c2 (by simp [hc2])]
    · rw [h'] at hc; simp [CallPlan.isExec] at hc

theorem planHistory_map_exec (ag : Agent) (st : RunState) :
    ∀ calls : List ToolCall,
      (∀ c ∈ calls, (planCall ag st c).isExec = true) →
      planHistory (calls.map (planCall ag st)) =
        (calls.map (execItems ag)).flatten := by
  intro calls
  induction calls with
  | nil => intro _; rfl
  | cons c r ih =>
    intro h
    have hc := h c (by simp)
    rcases planCall_cases ag st c with h' | h' | ⟨t, hf, h'⟩ | h'
    · rw [h'] at hc; simp [CallPlan.isExec] at hc
    · rw [h'] at hc; simp [CallPlan.isExec] at hc
    · have hout : t.execute c.arguments = toolOutput ag c := by
        unfold toolOutput; rw [hf]
      simp only [List.map_cons, h', planHistory, List.flatten_cons,
        execItems, hout, ih fun c2 hc2 => h c2 (by simp [hc2])]
      rfl
    · rw [h'] at hc; simp [CallPlan.isExec] at hc

theorem planInterrupts_map_exec (ag : Agent) (st : RunState)
    (calls : List ToolCall)
    (h : ∀ c ∈ calls, (planCall ag st c).isExec = true) :
    planInterrupts (calls.map (planCall ag st)) = [] := by
  rw [planInterrupts_map]
  rw [List.filter_eq_nil_iff]
  intro c hc
  have hcex := h c hc
  rcases planCall_cases ag st c with h' | h' | ⟨t, hf, h'⟩ | h'
  · rw [h'] at hcex; simp [CallPlan.isExec] at hcex
  · rw [h'] at hcex; simp [CallPlan.isExec] at hcex
  · simp [requiresInterrupt, h']
  · rw [h'] at hcex; simp [CallPlan.isExec] at hcex

theorem planEvents_mem (plans : List CallPlan) :
    ∀ e ∈ planEvents plans, e.isApprovalEval = false ∧
      e.isModelCall = false ∧ e.isGuardrailCheck = false := by
  induction plans with
  | nil => intro e he; exact absurd he (by simp [planEvents])
  | cons p r ih =>
    intro e he
    cases p <;> simp only [planEvents] at he
    case needsInterrupt c =>
      rcases List.mem_cons.mp he with rfl | h2
      · exact ⟨rfl, rfl, rfl⟩
      · exact ih e h2
    case rejectedCall c => exact ih e he
    case execCall c t =>
      rcases List.mem_cons.mp he with rfl | h2
      · exact ⟨rfl, rfl, rfl⟩
      · exact ih e h2
    case unknownTool c => exact ih e he

theorem stepTurn_no_guardrail (cfg : RunConfig) (st : RunState)
    (h : st.turnCount ≠ 0) :
    ∀ e ∈ (stepTurn cfg st).events, e.isGuardrailCheck = false := by
  have h1 : (st.turnCount + 1 = 1) = False := eq_false (by omega)
  intro e he
  unfold stepTurn at he
  simp only [h1, false_and, if_false, List.nil_append,
    List.cons_append] at he
  repeat' split at he
  all_goals simp only [StepResult.events] at he
  all_goals
    first
    | exact absurd he (List.not_mem_nil e)
    | (rcases List.mem_cons.mp he with rfl | he2
       · rfl
       · first
         | exact absurd he2 (List.not_mem_nil e)
         | (rcases List.mem_map.mp he2 with ⟨c, hc, rfl⟩
            rfl)
         | (rcases List.mem_append.mp he2 with h3 | h3
            · rcases List.mem_map.mp h3 with ⟨c, hc, rfl⟩
              rfl
            · exact (planEvents_mem _ e h3).2.2))

theorem stepTurn_nextTurn_turnCount (cfg : RunConfig) (st st1 : RunState)
    (evs : List Event) (h : stepTurn cfg st = .nextTurn st1 evs) :
    st1.turnCount = st.turnCount + 1 := by
  unfold stepTurn at h
  dsimp only at h
  repeat' split at h
  all_goals
    first
    | exact StepResult.noConfusion h
    | (injection h with h1 h2
       rw [← h1])

theorem loop_no_guardrail (cfg : RunConfig) :
    ∀ (fuel : Nat) (st : RunState), st.turnCount ≠ 0 →
      ∀ e ∈ (loop cfg fuel st).2.2, e.isGuardrailCheck = false := by
  intro fuel
  induction fuel with
  | zero => intro st h e he; simp [loop] at he
  | succ n ih =>
    intro st h e he
    unfold loop at he
    cases hstep : stepTurn cfg st with
    | finished out st1 evs =>
      rw [hstep] at he
      simp only at he
      have := stepTurn_no_guardrail cfg st h e
      rw [hstep] at this
      exact this he
    | nextTurn st1 evs =>
      rw [hstep] at he
      simp only at he
      rcases List.mem_append.mp he with h2 | h2
      · have := stepTurn_no_guardrail cfg st h e
        rw [hstep] at this
        exact this h2
      · refine ih st1 ?_ e h2
        rw [stepTurn_nextTurn_turnCount cfg st st1 evs hstep]
        omega

theorem stepTurn_limit (cfg : RunConfig) (st : RunState)
    (h : st.turnCount + 1 > cfg.maxTurns) :
    stepTurn cfg st = .finished .maxTurnsExceeded
      { st with turnCount := st.turnCount + 1 } [] := by
  unfold stepTurn
  dsimp only
  rw [if_pos h]

theorem stepTurn_tripwire (cfg : RunConfig) (st : RunState) (ag : Agent)
    (hlim : st.turnCount + 1 ≤ cfg.maxTurns)
    (hag : findAgent cfg st.currentAgent = some ag)
    (h0 : st.turnCount = 0)
    (htrip : (ag.inputGuardrails.any fun g => g st.originalInput) = true) :
    stepTurn cfg st = .finished .inputGuardrailTripped
      { st with turnCount := st.turnCount + 1 }
      ((List.range ag.inputGuardrails.length).map Event.guardrailCheck) := by
  have hnotmax : ¬ (st.turnCount + 1 > cfg.maxTurns) := by omega
  have h1 : (st.turnCount + 1 = 1) = True := eq_true (by omega)
  unfold stepTurn
  simp only [hag, hnotmax, if_false, h1, true_and, htrip, if_true]

theorem stepTurn_message (cfg : RunConfig) (st : RunState) (ag : Agent)
    (m : String)
    (hlim : st.turnCount + 1 ≤ cfg.maxTurns)
    (hag : findAgent cfg st.currentAgent = some ag)
    (hg : st.turnCount = 0 →
      (ag.inputGuardrails.any fun g => g st.originalInput) = false)
    (hm : cfg.model { st with turnCount := st.turnCount + 1 } = .message m)
    (hv : ag.validateOutput m = true)
    (hog : (ag.outputGuardrails.any fun g => g m) = false) :
    stepTurn cfg st = .finished (.finalOutput m)
      { st with
          turnCount := st.turnCount + 1
          history := st.history ++ [.assistantMessage m] }
      ((if st.turnCount = 0 then
          (List.range ag.inputGuardrails.length).map Event.guardrailCheck
        else []) ++ [Event.modelCall (st.turnCount + 1)]) := by
  have hnotmax : ¬ (st.turnCount + 1 > cfg.maxTurns) := by omega
  by_cases h0 : st.turnCount = 0
  · have h1 : (st.turnCount + 1 = 1) = True := eq_true (by omega)
    unfold stepTurn
    simp only [hag, hm, hnotmax, if_false, h1, true_and, if_true, hg h0,
      hv, hog, eq_true h0, Bool.false_eq_true]
  · have h1 : (st.turnCount + 1 = 1) = False := eq_false (by omega)
    unfold stepTurn
    simp only [hag, hm, hnotmax, if_false, h1, false_and, if_true, hv, hog,
      h0, Bool.false_eq_true]

theorem planCall_update (ag : Agent) (st : RunState) (k : Nat) :
    planCall ag { st with turnCount := k } = planCall ag st := rfl

theorem stepTurn_toolCalls (cfg : RunConfig) (st : RunState) (ag : Agent)
    (calls : List ToolCall)
    (hlim : st.turnCount + 1 ≤ cfg.maxTurns)
    (hag : findAgent cfg st.currentAgent = some ag)
    (hg : st.turnCount = 0 →
      (ag.inputGuardrails.any fun g => g st.originalInput) = false)
    (hm : cfg.model { st with turnCount := st.turnCount + 1 } =
      .toolCalls calls)
    (hknown : ((calls.map (planCall ag st)).any CallPlan.isUnknown) = false) :
    stepTurn cfg st =
      (if (planInterrupts (calls.map (planCall ag st))).isEmpty then
        StepResult.nextTurn
          { st with
              turnCount := st.turnCount + 1
              history := st.history ++
                planHistory (calls.map (planCall ag st)) }
          ((((if st.turnCount = 0 then
                (List.range ag.inputGuardrails.length).map
                  Event.guardrailCheck
              else []) ++ [Event.modelCall (st.turnCount + 1)]) ++
            calls.map fun c => Event.approvalEval c.callId) ++
            planEvents (calls.map (planCall ag st)))
      else
        StepResult.finished
          (.interrupted (planInterrupts (calls.map (planCall ag st))))
          { st with
              turnCount := st.turnCount + 1
              history := st.history ++
                planHistory (calls.map (planCall ag st))
              pendingInterruptions :=
                planInterrupts (calls.map (planCall ag st)) }
          ((((if st.turnCount = 0 then
                (List.range ag.inputGuardrails.length).map
                  Event.guardrailCheck
              else []) ++ [Event.modelCall (st.turnCount + 1)]) ++
            calls.map fun c => Event.approvalEval c.callId) ++
            planEvents (calls.map (planCall ag st)))) := by
  have hnotmax : ¬ (st.turnCount + 1 > cfg.maxTurns) := by omega
  by_cases h0 : st.turnCount = 0
  · have h1 : (st.turnCount + 1 = 1) = True := eq_true (by omega)
    unfold stepTurn
    simp only [hag, hm, hnotmax, if_false, h1, true_and, if_true, hg h0,
      eq_true h0, Bool.false_eq_true, planCall_update, hknown]
  · have h1 : (st.turnCount + 1 = 1) = False := eq_false (by omega)
    unfold stepTurn
    simp only [hag, hm, hnotmax, if_false, h1, false_and, if_true, h0,
      Bool.false_eq_true, planCall_update, hknown]

theorem planCall_isExec_of_approved (ag : Agent) (st : RunState)
    (c : ToolCall)
    (h1 : (ag.tools.find? fun t => t.name == c.name).isSome = true)
    (h2 : lookupDecision st c.callId = some true) :
    (planCall ag st c).isExec = true := by
  unfold planCall
  cases hf : ag.tools.find? fun t => t.name == c.name with
  | none => rw [hf] at h1; simp at h1
  | some t =>
    dsimp only
    by_cases hap : t.needsApproval c.arguments = true
    · rw [if_pos hap, h2]
      rfl
    · rw [if_neg hap]
      rfl

theorem resolveStep_approved (ag : Agent) (st : RunState)
    (hex : ∀ c ∈ st.pendingInterruptions, (planCall ag st c).isExec = true) :
    resolveStep ag st =
      (resolvedState ag st,
        (st.pendingInterruptions.map fun c => Event.approvalEval c.callId) ++
          st.pendingInterruptions.map
            (fun c => Event.toolExecute c.callId (toolNameOf ag c)),
        []) := by
  unfold resolveStep resolvedState
  simp only [planInterrupts_map_exec ag st _ hex,
    planEvents_map_exec ag st _ hex, planHistory_map_exec ag st _ hex]

theorem resolveStep_nil (ag : Agent) (st : RunState)
    (h : st.pendingInterruptions = []) :
    resolveStep ag st = (st, [], []) := by
  cases st with
  | mk oi ca tc hist decs pend =>
    simp only at h
    subst h
    unfold resolveStep
    simp [planHistory, planEvents, planInterrupts]

theorem runFromState_start (cfg : RunConfig) (st : RunState) (ag : Agent)
    (hag : findAgent cfg st.currentAgent = some ag)
    (hpend : st.pendingInterruptions = []) :
    runFromState cfg st = loop cfg (cfg.maxTurns + 1 - st.turnCount) st := by
  unfold runFromState
  simp only [hag, resolveStep_nil ag st hpend, List.isEmpty_nil, if_true,
    List.nil_append]

theorem modelCalls_append (l1 l2 : List Event) :
    modelCalls (l1 ++ l2) = modelCalls l1 + modelCalls l2 :=
  List.countP_append _ _ _

theorem modelCalls_eq_zero (l : List Event)
    (h : ∀ e ∈ l, e.isModelCall = false) : modelCalls l = 0 := by
  unfold modelCalls
  rw [List.countP_eq_zero]
  intro e he
  simp [h e he]

theorem modelCalls_guardrails (n : Nat) :
    modelCalls ((List.range n).map Event.guardrailCheck) = 0 := by
  apply modelCalls_eq_zero
  intro e he
  rcases List.mem_map.mp he with ⟨i, _, rfl⟩
  rfl

theorem modelCalls_guardrails_if (b : Prop) [Decidable b] (n : Nat) :
    modelCalls (if b then (List.range n).map Event.guardrailCheck
      else []) = 0 := by
  split
  · exact modelCalls_guardrails n
  · rfl

theorem modelCalls_approvals (calls : List ToolCall) :
    modelCalls (calls.map fun c => Event.approvalEval c.callId) = 0 := by
  apply modelCalls_eq_zero
  intro e he
  rcases List.mem_map.mp he with ⟨c, _, rfl⟩
  rfl

theorem modelCalls_planEvents (plans : List CallPlan) :
    modelCalls (planEvents plans) = 0 :=
  modelCalls_eq_zero _ fun e he => (planEvents_mem plans e he).2.1

theorem modelCalls_single (t : Nat) :
    modelCalls [Event.modelCall t] = 1 := rfl

theorem loop_toolspin (cfg : RunConfig) (ag : Agent) (A : String)
    (hag : findAgent cfg A = some ag)
    (hmodel : ∀ s : RunState, ∃ calls, cfg.model s = .toolCalls calls ∧
      ((calls.map (planCall ag s)).any CallPlan.isUnknown) = false ∧
      planInterrupts (calls.map (planCall ag s)) = []) :
    ∀ (fuel : Nat) (st : RunState), st.currentAgent = A →
      fuel = cfg.maxTurns + 1 - st.turnCount →
      st.turnCount ≤ cfg.maxTurns →
      (st.turnCount = 0 →
        (ag.inputGuardrails.any fun g => g st.originalInput) = false) →
      (loop cfg fuel st).1 = .maxTurnsExceeded ∧
      (loop cfg fuel st).2.1.turnCount = cfg.maxTurns + 1 ∧
      modelCalls (loop cfg fuel st).2.2 = cfg.maxTurns - st.turnCount := by
  intro fuel
  induction fuel with
  | zero =>
    intro st hcur hfuel hle hg
    omega
  | succ n ih =>
    intro st hcur hfuel hle hg
    by_cases hmax : st.turnCount + 1 > cfg.maxTurns
    · have hstep := stepTurn_limit cfg st hmax
      unfold loop
      rw [hstep]
      refine ⟨rfl, ?_, ?_⟩
      · simp only
        omega
      · simp only [modelCalls, List.countP_nil]
        omega
    · obtain ⟨calls, hm, hkn, hints⟩ :=
        hmodel { st with turnCount := st.turnCount + 1 }
      rw [planCall_update] at hkn hints
      have hag2 : findAgent cfg st.currentAgent = some ag := by
        rw [hcur]; exact hag
      have hstep := stepTurn_toolCalls cfg st ag calls (by omega) hag2 hg
        hm hkn
      rw [hints] at hstep
      simp only [List.isEmpty_nil, if_true] at hstep
      unfold loop
      rw [hstep]
      simp only
      have hrec := ih { st with
          turnCount := st.turnCount + 1
          history := st.history ++
            planHistory (calls.map (planCall ag st)) }
        (by simp [hcur]) (by simp; omega) (by simp; omega) (by simp)
      refine ⟨hrec.1, hrec.2.1, ?_⟩
      rw [modelCalls_append, modelCalls_append, modelCalls_append,
        modelCalls_append, modelCalls_guardrails_if, modelCalls_single,
        modelCalls_approvals, modelCalls_planEvents]
      have hcount := hrec.2.2
      simp only at hcount
      rw [hcount]
      omega

end Loop

namespace Pine

theorem iterInit_invariant (env : PineEnv) :
    ∀ n : Nat, 1 ≤ n →
      (iterInit env n).initCalls = 1 ∧
        (iterInit env n).initialized = true := by
  intro n
  induction n with
  | zero => intro h; exact absurd h (by omega)
  | succ k ih =>
    intro _
    by_cases hk : 1 ≤ k
    · obtain ⟨h1, h2⟩ := ih hk
      show (initPinecone env (iterInit env k)).1.initCalls = 1 ∧
        (initPinecone env (iterInit env k)).1.initialized = true
      simp [initPinecone, h1, h2]
    · have hk0 : k = 0 := by omega
      subst hk0
      show (initPinecone env (iterInit env 0)).1.initCalls = 1 ∧
        (initPinecone env (iterInit env 0)).1.initialized = true
      simp [initPinecone, iterInit, initialState]

end Pine

/-! ## Claim theorems -/

/-- C5: serializing a `RunState`, deserializing it and serializing again
yields exactly the same string: `deserialize` recovers a state whose
serialization is byte-for-byte the original one (this holds for every
state, in particular for unresumed, unmodified ones). -/
theorem runstate_serialize_roundtrip :
    ∀ st : Loop.RunState, ∃ st2 : Loop.RunState,
      Loop.deserialize (Loop.serialize st) = some st2 ∧
      Loop.serialize st2 = Loop.serialize st :=
  fun st => ⟨st, Loop.deserialize_serialize st, rfl⟩

/-- C8: the unnamed route handler answers a request without a truthy
`query` with status 400, body `{ error: 'Missing query' }` and no
embedding, vector-store or model call at all, while the handler of
`src/app/api/chat/rag/route.ts` performs no such check: it returns 200
and performs the embedding, vector-store and model calls for every
parsed body, truthy query or not. -/
theorem missing_query_handling :
    (∀ (E : Type) (deps : Rag.RagDeps E) (split : String → List String)
      (files : List Rag.FileEntry) (body : Rag.ReqBody),
      Rag.truthy body.query = false →
        Rag.postUnnamedRoute deps split files body =
          { status := 400, body := .errorBody "Missing query",
            effects := [] }) ∧
    (∀ (E : Type) (deps : Rag.RagDeps E) (body : Rag.ReqBody),
      (Rag.postRagRoute deps body).status = 200 ∧
      (Rag.postRagRoute deps body).effects =
        [.embedCall body.query, .vectorSearch,
          .llmPrompt ("Context:\n" ++
            String.intercalate "\n"
              ((deps.getRelevantDocs
                (deps.embedQuery body.query)).map Rag.Document.pageContent)
            ++ "\n\nQ: " ++ Rag.jsToString body.query ++ "\nA:")]) := by
  constructor
  · intro E deps split files body h
    unfold Rag.postUnnamedRoute
    rw [if_pos h]
  · intro E deps body
    exact ⟨rfl, rfl⟩

/-- C8 witness: a concrete body without a query field is rejected by the
unnamed handler with no external calls, while `route.ts` still makes all
three calls on the same body. -/
theorem missing_query_handling_witness :
    Rag.postUnnamedRoute Rag.demoDeps Rag.demoSplit [] ⟨none⟩ =
      { status := 400, body := .errorBody "Missing query",
        effects := [] } ∧
    (Rag.postRagRoute Rag.demoDeps ⟨none⟩).status = 200 := by
  refine ⟨?_, ?_⟩
  · exact missing_query_handling.1 Nat Rag.demoDeps Rag.demoSplit [] ⟨none⟩
      rfl
  · exact (missing_query_handling.2 Nat Rag.demoDeps ⟨none⟩).1

/-- C9: `initPinecone` initializes the Pinecone client at most once:
after any positive number of successive calls the module has invoked
`pinecone.init` exactly once (on the first call), and every call returns
the index named by `PINECONE_INDEX_NAME`. -/
theorem initPinecone_idempotent :
    ∀ (env : Pine.PineEnv) (n : Nat), 1 ≤ n →
      (Pine.iterInit env n).initCalls = 1 ∧
      (∀ st : Pine.PineconeState,
        (Pine.initPinecone env st).2 = env.indexName) := by
  intro env n hn
  refine ⟨(Pine.iterInit_invariant env n hn).1, ?_⟩
  intro st
  unfold Pine.initPinecone
  split <;> rfl

/-- C9 witness: after three calls the client was initialized exactly
once, and the third call returns the configured index name. -/
theorem initPinecone_idempotent_witness :
    (Pine.iterInit ⟨"idx"⟩ 3).initCalls = 1 ∧
    (Pine.initPinecone ⟨"idx"⟩ (Pine.iterInit ⟨"idx"⟩ 2)).2 = "idx" := by
  have h := initPinecone_idempotent ⟨"idx"⟩ 3 (by omega)
  exact ⟨h.1, h.2 (Pine.iterInit ⟨"idx"⟩ 2)⟩

/-- C10: every document returned by `loadLocalDocuments` stems from a
directory entry with extension `.txt` or `.md` and carries that file's
name as `metadata.source`; the result is the concatenation, in
directory-listing order, of each supported file's chunk documents (so
unsupported files contribute nothing and documents are grouped by
source file). -/
theorem loadLocalDocuments_sources :
    ∀ (split : String → List String) (files : List Rag.FileEntry),
      Rag.loadLocalDocuments split files =
        (files.map (Rag.docsOfFile split)).flatten ∧
      ∀ d ∈ Rag.loadLocalDocuments split files, ∃ f ∈ files,
        Rag.isSupportedExt (Rag.extname f.name) = true ∧
        d.metadataSource = f.name := by
  intro split files
  refine ⟨Rag.loadLocalDocuments_eq_flatten split files, ?_⟩
  intro d hd
  rw [Rag.loadLocalDocuments_eq_flatten split files] at hd
  rcases List.mem_flatten.mp hd with ⟨l, hl, hdl⟩
  rcases List.mem_map.mp hl with ⟨f, hf, rfl⟩
  refine ⟨f, hf, ?_⟩
  unfold Rag.docsOfFile at hdl
  by_cases hs : Rag.isSupportedExt (Rag.extname f.name) = true
  · rw [if_pos hs] at hdl
    rcases List.mem_map.mp hdl with ⟨c, _, rfl⟩
    exact ⟨hs, rfl⟩
  · rw [if_neg hs] at hdl
    exact absurd hdl (List.not_mem_nil d)

/-- C10 witness: with a one-chunk splitter, a listing of a `.txt` file
and a `.js` file yields exactly the one document of the text file,
tagged with its source name. -/
theorem loadLocalDocuments_sources_witness :
    Rag.loadLocalDocuments Rag.demoSplit
        [⟨"a.txt", "hello"⟩, ⟨"b.js", "x"⟩] =
      [⟨"hello", "a.txt"⟩] ∧
    ∃ f ∈ [Rag.FileEntry.mk "a.txt" "hello", ⟨"b.js", "x"⟩],
      Rag.isSupportedExt (Rag.extname f.name) = true ∧
      (Rag.Document.mk "hello" "a.txt").metadataSource = f.name := by
  have h := loadLocalDocuments_sources Rag.demoSplit
    [⟨"a.txt", "hello"⟩, ⟨"b.js", "x"⟩]
  refine ⟨?_, ?_⟩
  · rw [h.1]
    decide
  · apply h.2
    rw [h.1]
    decide

/-- C1 counterexample: a POST request whose body has no truthy `query`
is handled by the unnamed RAG route with zero chat-model invocations,
so not every handled POST request invokes the chat model exactly once. -/
theorem unnamed_route_zero_model_calls :
    Rag.modelCallCount
      (Rag.postUnnamedRoute Rag.demoDeps Rag.demoSplit [] ⟨none⟩) = 0 ∧
    (0 : Nat) ≠ 1 := by
  exact ⟨rfl, by omega⟩

/-- C1 (amended): a run whose first model response has no tool or
handoff calls and satisfies the output contract finishes with exactly
one model invocation; the handler of `route.ts` invokes the chat model
exactly once on every request, and the unnamed handler does so on every
request with a truthy `query` (a request without one is rejected before
any model call). -/
theorem run_and_routes_single_model_call :
    (∀ (cfg : Loop.RunConfig) (ag : Loop.Agent) (A input m : String),
      Loop.findAgent cfg A = some ag →
      1 ≤ cfg.maxTurns →
      (ag.inputGuardrails.any fun g => g input) = false →
      cfg.model
        { Loop.initialRunState A input with turnCount := 1 } =
          .message m →
      ag.validateOutput m = true →
      (ag.outputGuardrails.any fun g => g m) = false →
      (Loop.runAgent cfg A input).1 = .finalOutput m ∧
        Loop.modelCalls (Loop.runAgent cfg A input).2.2 = 1) ∧
    (∀ (E : Type) (deps : Rag.RagDeps E) (split : String → List String)
      (files : List Rag.FileEntry) (body : Rag.ReqBody),
      Rag.truthy body.query = true →
      Rag.modelCallCount (Rag.postUnnamedRoute deps split files body) = 1) ∧
    (∀ (E : Type) (deps : Rag.RagDeps E) (body : Rag.ReqBody),
      Rag.modelCallCount (Rag.postRagRoute deps body) = 1) := by
  refine ⟨?_, ?_, ?_⟩
  · intro cfg ag A input m hag hmax hg hm hv hog
    have hag0 : Loop.findAgent cfg
        (Loop.initialRunState A input).currentAgent = some ag := hag
    have hrun := Loop.runFromState_start cfg
      (Loop.initialRunState A input) ag hag0 rfl
    have hfuel : cfg.maxTurns + 1 -
        (Loop.initialRunState A input).turnCount = cfg.maxTurns + 1 :=
      Nat.sub_zero _
    have hstep := Loop.stepTurn_message cfg (Loop.initialRunState A input)
      ag m (by exact hmax) hag0 (fun _ => hg) hm hv hog
    unfold Loop.runAgent
    rw [hrun, hfuel]
    cases hmt : cfg.maxTurns with
    | zero => exact absurd (hmt ▸ hmax) (by norm_num)
    | succ k =>
      unfold Loop.loop
      rw [← hmt, hstep]
      refine ⟨rfl, ?_⟩
      simp only
      rw [Loop.modelCalls_append, Loop.modelCalls_guardrails_if,
        Loop.modelCalls_single]
  · intro E deps split files body h
    unfold Rag.postUnnamedRoute
    rw [if_neg (by simp [h])]
    rfl
  · intro E deps body
    rfl

/-- C1 witness: a concrete agent whose model immediately answers "hi"
finishes with final output "hi" after exactly one model call, and both
handlers make exactly one model call on a truthy query. -/
theorem run_and_routes_single_model_call_witness :
    ((Loop.runAgent Loop.demoCfgMsg "a" "in").1 = .finalOutput "hi" ∧
      Loop.modelCalls (Loop.runAgent Loop.demoCfgMsg "a" "in").2.2 = 1) ∧
    Rag.modelCallCount
      (Rag.postUnnamedRoute Rag.demoDeps Rag.demoSplit []
        ⟨some "q"⟩) = 1 ∧
    Rag.modelCallCount (Rag.postRagRoute Rag.demoDeps ⟨some "q"⟩) = 1 := by
  refine ⟨?_, ?_, ?_⟩
  · exact run_and_routes_single_model_call.1 Loop.demoCfgMsg
      Loop.demoAgent "a" "in" "hi" rfl (by decide) rfl rfl rfl rfl
  · exact run_and_routes_single_model_call.2.1 Nat Rag.demoDeps
      Rag.demoSplit [] ⟨some "q"⟩ rfl
  · exact run_and_routes_single_model_call.2.2 Nat Rag.demoDeps ⟨some "q"⟩

/-- C4: with a model that always requests executable tool calls, the run
fails with `maxTurnsExceeded` exactly when the turn counter exceeds the
limit: the returned state's counter is `maxTurns + 1` and exactly
`maxTurns` model calls were made, so with limit 2 the error arises on
the third iteration attempt, after two model calls, never earlier or
later. -/
theorem turn_limit_exact :
    ∀ (cfg : Loop.RunConfig) (ag : Loop.Agent) (A input : String),
      Loop.findAgent cfg A = some ag →
      (∀ s : Loop.RunState, ∃ calls, cfg.model s = .toolCalls calls ∧
        ((calls.map (Loop.planCall ag s)).any Loop.CallPlan.isUnknown) =
          false ∧
        Loop.planInterrupts (calls.map (Loop.planCall ag s)) = []) →
      (ag.inputGuardrails.any fun g => g input) = false →
      (Loop.runAgent cfg A input).1 = .maxTurnsExceeded ∧
      (Loop.runAgent cfg A input).2.1.turnCount = cfg.maxTurns + 1 ∧
      Loop.modelCalls (Loop.runAgent cfg A input).2.2 = cfg.maxTurns := by
  intro cfg ag A input hag hmodel hg
  have hag0 : Loop.findAgent cfg
      (Loop.initialRunState A input).currentAgent = some ag := hag
  have hrun := Loop.runFromState_start cfg
    (Loop.initialRunState A input) ag hag0 rfl
  unfold Loop.runAgent
  rw [hrun]
  have h := Loop.loop_toolspin cfg ag A hag hmodel
    (cfg.maxTurns + 1 - (Loop.initialRunState A input).turnCount)
    (Loop.initialRunState A input) rfl rfl (Nat.zero_le cfg.maxTurns)
    (fun _ => hg)
  refine ⟨h.1, h.2.1, ?_⟩
  rw [h.2.2,
    show (Loop.initialRunState A input).turnCount = 0 from rfl,
    Nat.sub_zero]

/-- C4 witness: with limit 2 and a model that always asks for another
tool call, the error is `maxTurnsExceeded`, the counter stops at 3 and
exactly 2 model calls were made. -/
theorem turn_limit_exact_witness :
    (Loop.runAgent Loop.demoCfgSpin "a" "in").1 = .maxTurnsExceeded ∧
    (Loop.runAgent Loop.demoCfgSpin "a" "in").2.1.turnCount = 3 ∧
    Loop.modelCalls (Loop.runAgent Loop.demoCfgSpin "a" "in").2.2 = 2 := by
  have h := turn_limit_exact Loop.demoCfgSpin Loop.demoAgent "a" "in" rfl
    (fun s => ⟨[Loop.demoCallFree], rfl, rfl, rfl⟩) rfl
  exact ⟨h.1, h.2.1, h.2.2⟩

namespace Loop

theorem isExec_not_unknown (p : CallPlan) (h : p.isExec = true) :
    p.isUnknown = false := by
  cases p
  · simp [CallPlan.isExec] at h
  · simp [CallPlan.isExec] at h
  · rfl
  · simp [CallPlan.isExec] at h

theorem map_plans_no_unknown (ag : Agent) (st : RunState)
    (calls : List ToolCall)
    (hex : ∀ c ∈ calls, (planCall ag st c).isExec = true) :
    ((calls.map (planCall ag st)).any CallPlan.isUnknown) = false := by
  rw [List.any_eq_false]
  intro p hp
  rcases List.mem_map.mp hp with ⟨c, hc, rfl⟩
  simp [isExec_not_unknown _ (hex c hc)]

end Loop

/-- C7: tool results are serialized back into the conversation in the
order the model requested the calls — a turn whose calls are all
executable appends, per call in request order, the call item followed by
its result; and in both RAG handlers the context string sent to the
model is the retrieved documents' `pageContent` fields joined in exactly
the order the similarity search returned them. -/
theorem results_in_request_order :
    (∀ (cfg : Loop.RunConfig) (st : Loop.RunState) (ag : Loop.Agent)
      (calls : List Loop.ToolCall),
      Loop.findAgent cfg st.currentAgent = some ag →
      st.turnCount + 1 ≤ cfg.maxTurns →
      (st.turnCount = 0 →
        (ag.inputGuardrails.any fun g => g st.originalInput) = false) →
      cfg.model { st with turnCount := st.turnCount + 1 } =
        .toolCalls calls →
      (∀ c ∈ calls, (Loop.planCall ag st c).isExec = true) →
      ∃ evs, Loop.stepTurn cfg st = .nextTurn
        { st with
            turnCount := st.turnCount + 1
            history := st.history ++
              (calls.map (Loop.execItems ag)).flatten } evs) ∧
    (∀ (E : Type) (deps : Rag.RagDeps E) (split : String → List String)
      (files : List Rag.FileEntry) (body : Rag.ReqBody),
      Rag.truthy body.query = true →
      (Rag.postUnnamedRoute deps split files body).effects =
        [.upsertDocs (Rag.loadLocalDocuments split files).length,
          .embedCall body.query, .vectorSearch,
          .llmInvoke [.system "You are a helpful assistant.",
            .human ("Context:\n" ++
              String.intercalate "\n\n"
                ((deps.similaritySearch (Rag.loadLocalDocuments split files)
                  (deps.embedQuery body.query) 4).map
                    Rag.Document.pageContent)
              ++ "\n\nQ: " ++ Rag.jsToString body.query ++ "\nA:")]]) ∧
    (∀ (E : Type) (deps : Rag.RagDeps E) (body : Rag.ReqBody),
      (Rag.postRagRoute deps body).effects.getLast? =
        some (.llmPrompt ("Context:\n" ++
          String.intercalate "\n"
            ((deps.getRelevantDocs
              (deps.embedQuery body.query)).map Rag.Document.pageContent)
          ++ "\n\nQ: " ++ Rag.jsToString body.query ++ "\nA:"))) := by
  refine ⟨?_, ?_, ?_⟩
  · intro cfg st ag calls hag hlim hg hm hex
    have hknown := Loop.map_plans_no_unknown ag st calls hex
    have hstep := Loop.stepTurn_toolCalls cfg st ag calls hlim hag hg hm
      hknown
    rw [Loop.planInterrupts_map_exec ag st calls hex,
      Loop.planHistory_map_exec ag st calls hex] at hstep
    simp only [List.isEmpty_nil, if_true] at hstep
    exact ⟨_, hstep⟩
  · intro E deps split files body h
    unfold Rag.postUnnamedRoute
    rw [if_neg (by simp [h])]
  · intro E deps body
    rfl

/-- C7 witness: a concrete single-call turn appends the call and its
result to history in order, and both handlers put the in-order joined
page contents into the prompt. -/
theorem results_in_request_order_witness :
    (∃ evs, Loop.stepTurn Loop.demoCfgSpin
        (Loop.initialRunState "a" "in") = .nextTurn
      { Loop.initialRunState "a" "in" with
          turnCount := 1
          history := [Loop.Item.userMessage "in",
            .toolCallItem Loop.demoCallFree, .toolResult "c2" "y"] }
        evs) ∧
    (Rag.postRagRoute Rag.demoDeps ⟨some "q"⟩).effects.getLast? =
      some (.llmPrompt "Context:\n\n\nQ: q\nA:") := by
  constructor
  · have h := results_in_request_order.1 Loop.demoCfgSpin
      (Loop.initialRunState "a" "in") Loop.demoAgent [Loop.demoCallFree]
      rfl (by decide) (fun _ => rfl) rfl (by decide)
    exact h
  · exact results_in_request_order.2.2 Nat Rag.demoDeps ⟨some "q"⟩

/-- C2: when the model response carries `N` tool calls of which `M` need
an approval with no recorded decision, the turn evaluates the approval
requirement of all `N` calls before executing anything, suspends with
exactly those `M` interruptions, and makes no further model call in the
turn: the trace holds a single model call, then all `N` approval
evaluations, and only then any execution events. -/
theorem toolcall_batch_single_suspension :
    ∀ (cfg : Loop.RunConfig) (st : Loop.RunState) (ag : Loop.Agent)
      (calls : List Loop.ToolCall) (fuel : Nat),
      Loop.findAgent cfg st.currentAgent = some ag →
      st.turnCount + 1 ≤ cfg.maxTurns →
      (st.turnCount = 0 →
        (ag.inputGuardrails.any fun g => g st.originalInput) = false) →
      cfg.model { st with turnCount := st.turnCount + 1 } =
        .toolCalls calls →
      ((calls.map (Loop.planCall ag st)).any Loop.CallPlan.isUnknown) =
        false →
      1 ≤ (calls.filter (Loop.requiresInterrupt ag st)).length →
      (Loop.loop cfg (fuel + 1) st).1 =
        .interrupted (calls.filter (Loop.requiresInterrupt ag st)) ∧
      Loop.modelCalls (Loop.loop cfg (fuel + 1) st).2.2 = 1 ∧
      ∃ pre post, (Loop.loop cfg (fuel + 1) st).2.2 =
          pre ++ (calls.map fun c => Loop.Event.approvalEval c.callId) ++
            post ∧
        (∀ e ∈ pre, e.isApprovalEval = false ∧ e.isToolExecute = false) ∧
        (∀ e ∈ post, e.isApprovalEval = false) := by
  intro cfg st ag calls fuel hag hlim hg hm hknown hM
  have hne : calls.filter (Loop.requiresInterrupt ag st) ≠ [] := by
    intro h
    rw [h] at hM
    simp at hM
  have hstep := Loop.stepTurn_toolCalls cfg st ag calls hlim hag hg hm
    hknown
  rw [Loop.planInterrupts_map] at hstep
  have hemp : (calls.filter (Loop.requiresInterrupt ag st)).isEmpty =
      false := by
    cases hfil : calls.filter (Loop.requiresInterrupt ag st) with
    | nil => exact absurd hfil hne
    | cons a l => rfl
  rw [hemp] at hstep
  simp only [Bool.false_eq_true, if_false] at hstep
  unfold Loop.loop
  rw [hstep]
  refine ⟨rfl, ?_, ?_⟩
  · simp only
    rw [Loop.modelCalls_append, Loop.modelCalls_append,
      Loop.modelCalls_append, Loop.modelCalls_guardrails_if,
      Loop.modelCalls_single, Loop.modelCalls_approvals,
      Loop.modelCalls_planEvents]
  · refine ⟨(if st.turnCount = 0 then
        (List.range ag.inputGuardrails.length).map
          Loop.Event.guardrailCheck
      else []) ++ [Loop.Event.modelCall (st.turnCount + 1)],
      Loop.planEvents (calls.map (Loop.planCall ag st)), ?_, ?_, ?_⟩
    · simp only [List.append_assoc]
    · intro e he
      rcases List.mem_append.mp he with h2 | h2
      · split at h2
        · rcases List.mem_map.mp h2 with ⟨i, _, rfl⟩
          exact ⟨rfl, rfl⟩
        · exact absurd h2 (List.not_mem_nil e)
      · rcases List.mem_singleton.mp h2 with rfl
        exact ⟨rfl, rfl⟩
    · intro e he
      exact (Loop.planEvents_mem _ e he).1

/-- C2 witness: a first response with two tool calls, one needing an
undecided approval, suspends with exactly that one interruption after a
single model call, with both approval evaluations traced before any
execution. -/
theorem toolcall_batch_single_suspension_witness :
    (Loop.loop Loop.demoCfgMixed 10 (Loop.initialRunState "a" "in")).1 =
      .interrupted [Loop.demoCall] ∧
    Loop.modelCalls
      (Loop.loop Loop.demoCfgMixed 10
        (Loop.initialRunState "a" "in")).2.2 = 1 := by
  have h := toolcall_batch_single_suspension Loop.demoCfgMixed
    (Loop.initialRunState "a" "in") Loop.demoAgent
    [Loop.demoCall, Loop.demoCallFree] 9 rfl (by decide) (fun _ => rfl)
    rfl (by decide) (by decide)
  exact ⟨h.1, h.2.1⟩

namespace Loop

theorem stepTurn_first_events (cfg : RunConfig) (st : RunState)
    (ag : Agent) (h0 : st.turnCount = 0)
    (hag : findAgent cfg st.currentAgent = some ag)
    (hlim : st.turnCount + 1 ≤ cfg.maxTurns)
    (hg : (ag.inputGuardrails.any fun g => g st.originalInput) = false) :
    ∃ rest, (stepTurn cfg st).events =
      ((List.range ag.inputGuardrails.length).map Event.guardrailCheck) ++
        rest ∧
      ∀ e ∈ rest, e.isGuardrailCheck = false := by
  have h1 : (st.turnCount + 1 = 1) = True := eq_true (by omega)
  have hnotmax : ¬ (st.turnCount + 1 > cfg.maxTurns) := by omega
  unfold stepTurn
  simp only [hag, hnotmax, if_false, h1, true_and, hg,
    Bool.false_eq_true, if_true]
  repeat' split
  all_goals simp only [StepResult.events, List.append_assoc,
    List.singleton_append]
  all_goals refine ⟨_, rfl, ?_⟩
  all_goals intro e he
  all_goals
    first
    | (rcases List.mem_singleton.mp he with rfl
       rfl)
    | (rcases List.mem_cons.mp he with rfl | he2
       · rfl
       · first
         | (rcases List.mem_map.mp he2 with ⟨c, hc, rfl⟩
            rfl)
         | (rcases List.mem_append.mp he2 with h3 | h3
            · rcases List.mem_map.mp h3 with ⟨c, hc, rfl⟩
              rfl
            · exact (planEvents_mem _ e h3).2.2))

theorem runAgent_eq_loop (cfg : RunConfig) (A input : String) (ag : Agent)
    (hag : findAgent cfg A = some ag) :
    runAgent cfg A input =
      loop cfg (cfg.maxTurns + 1) (initialRunState A input) := by
  unfold runAgent
  rw [runFromState_start cfg (initialRunState A input) ag hag rfl]
  rfl

theorem loop_succ_finished (cfg : RunConfig) (fuel : Nat) (st : RunState)
    (out : RunOutcome) (st1 : RunState) (evs : List Event)
    (h : stepTurn cfg st = .finished out st1 evs) :
    loop cfg (fuel + 1) st = (out, st1, evs) := by
  unfold loop
  rw [h]

theorem loop_succ_next (cfg : RunConfig) (fuel : Nat) (st : RunState)
    (st1 : RunState) (evs : List Event)
    (h : stepTurn cfg st = .nextTurn st1 evs) :
    loop cfg (fuel + 1) st = ((loop cfg fuel st1).1,
      (loop cfg fuel st1).2.1, evs ++ (loop cfg fuel st1).2.2) := by
  conv_lhs => rw [loop]
  rw [h]

end Loop

/-- C6: input guardrails run exactly once per run, at the very start of
the first turn and before any model call: the trace starts with one
check per configured input guardrail, no guardrail check ever appears
later (in particular not after a handoff or on later turns), and when a
guardrail trips, the run fails as `inputGuardrailTripped` with zero
model invocations. -/
theorem input_guardrails_first_turn_only :
    ∀ (cfg : Loop.RunConfig) (A input : String) (ag : Loop.Agent),
      Loop.findAgent cfg A = some ag →
      1 ≤ cfg.maxTurns →
      ∃ rest, (Loop.runAgent cfg A input).2.2 =
          ((List.range ag.inputGuardrails.length).map
            Loop.Event.guardrailCheck) ++ rest ∧
        (∀ e ∈ rest, e.isGuardrailCheck = false) ∧
        ((ag.inputGuardrails.any fun g => g input) = true →
          (Loop.runAgent cfg A input).1 = .inputGuardrailTripped ∧
          Loop.modelCalls (Loop.runAgent cfg A input).2.2 = 0) := by
  intro cfg A input ag hag hmax
  have hag0 : Loop.findAgent cfg
      (Loop.initialRunState A input).currentAgent = some ag := hag
  rw [Loop.runAgent_eq_loop cfg A input ag hag]
  cases hmt : cfg.maxTurns with
  | zero => exact absurd (hmt ▸ hmax) (by norm_num)
  | succ k =>
    rcases Bool.eq_false_or_eq_true
      (ag.inputGuardrails.any fun g => g input) with htrip | hgf
    · have htrip2 : (ag.inputGuardrails.any fun g =>
          g (Loop.initialRunState A input).originalInput) = true := htrip
      have hstep := Loop.stepTurn_tripwire cfg
        (Loop.initialRunState A input) ag hmax hag0 rfl htrip2
      rw [Loop.loop_succ_finished cfg (k + 1) _ _ _ _ hstep]
      refine ⟨[], (List.append_nil _).symm, ?_, ?_⟩
      · intro e he
        exact absurd he (List.not_mem_nil e)
      · intro _
        exact ⟨rfl, Loop.modelCalls_guardrails _⟩
    · have hgf2 : (ag.inputGuardrails.any fun g =>
          g (Loop.initialRunState A input).originalInput) = false := hgf
      obtain ⟨rest0, hev, hrest0⟩ := Loop.stepTurn_first_events cfg
        (Loop.initialRunState A input) ag rfl hag0 hmax hgf2
      cases hstep : Loop.stepTurn cfg (Loop.initialRunState A input) with
      | finished out st1 evs =>
        rw [Loop.loop_succ_finished cfg (k + 1) _ out st1 evs hstep]
        rw [hstep] at hev
        simp only [Loop.StepResult.events] at hev
        refine ⟨rest0, hev, hrest0, ?_⟩
        intro h
        rw [h] at hgf
        exact absurd hgf (by norm_num)
      | nextTurn st1 evs =>
        rw [Loop.loop_succ_next cfg (k + 1) _ st1 evs hstep]
        rw [hstep] at hev
        simp only [Loop.StepResult.events] at hev
        have ht1 : st1.turnCount ≠ 0 := by
          rw [Loop.stepTurn_nextTurn_turnCount cfg _ st1 evs hstep]
          omega
        refine ⟨rest0 ++ (Loop.loop cfg (k + 1) st1).2.2, ?_, ?_, ?_⟩
        · simp only
          rw [hev, List.append_assoc]
        · intro e he
          rcases List.mem_append.mp he with h2 | h2
          · exact hrest0 e h2
          · exact Loop.loop_no_guardrail cfg (k + 1) st1 ht1 e h2
        · intro h
          rw [h] at hgf
          exact absurd hgf (by norm_num)

/-- C6 witness: an input guardrail that trips on the concrete input
"bad" halts the run as `inputGuardrailTripped` before any model call. -/
theorem input_guardrails_first_turn_only_witness :
    (Loop.runAgent Loop.demoCfgGuard "g" "bad").1 =
      .inputGuardrailTripped ∧
    Loop.modelCalls (Loop.runAgent Loop.demoCfgGuard "g" "bad").2.2 = 0 := by
  obtain ⟨rest, h1, h2, h3⟩ := input_guardrails_first_turn_only
    Loop.demoCfgGuard "g" "bad" Loop.demoGuardAgent rfl (by decide)
  exact h3 rfl

namespace Loop

theorem countP_execOf_approvals (P : List ToolCall) (id : String) :
    ((P.map fun c => Event.approvalEval c.callId).countP
      fun e => e.execOf id) = 0 := by
  rw [List.countP_eq_zero]
  intro e he
  rcases List.mem_map.mp he with ⟨c, _, rfl⟩
  simp [Event.execOf]

theorem countP_execOf_guards (b : Prop) [Decidable b] (n : Nat)
    (id : String) :
    (((if b then (List.range n).map Event.guardrailCheck
      else []).countP fun e => e.execOf id)) = 0 := by
  split
  · rw [List.countP_eq_zero]
    intro e he
    rcases List.mem_map.mp he with ⟨i, _, rfl⟩
    simp [Event.execOf]
  · rfl

theorem countP_execOf_modelCall (t : Nat) (id : String) :
    (([Event.modelCall t] : List Event).countP fun e => e.execOf id) = 0 :=
  rfl

theorem countP_execOf_execs (f : ToolCall → String) :
    ∀ (P : List ToolCall) (id : String), id ∈ P.map ToolCall.callId →
      (P.map ToolCall.callId).Nodup →
      ((P.map fun c => Event.toolExecute c.callId (f c)).countP
        fun e => e.execOf id) = 1 := by
  intro P
  induction P with
  | nil => intro id h _; simp at h
  | cons c r ih =>
    intro id hmem hnodup
    rw [List.map_cons] at hmem hnodup
    have hnd := List.nodup_cons.mp hnodup
    simp only [List.map_cons, List.countP_cons]
    rcases List.mem_cons.mp hmem with heq | hmem2
    · subst heq
      have hz : ((r.map fun c2 =>
          Event.toolExecute c2.callId (f c2)).countP
            fun e => e.execOf c.callId) = 0 := by
        rw [List.countP_eq_zero]
        intro e he
        rcases List.mem_map.mp he with ⟨c2, hc2, rfl⟩
        simp only [Event.execOf, beq_iff_eq]
        intro hcontra
        exact hnd.1 (hcontra ▸ List.mem_map_of_mem ToolCall.callId hc2)
      rw [hz]
      simp [Event.execOf]
    · have hne : (c.callId == id) = false := by
        rw [beq_eq_false_iff_ne]
        intro hcontra
        exact hnd.1 (hcontra ▸ hmem2)
      rw [ih id hmem2 hnd.2]
      simp [Event.execOf, hne]

end Loop

/-- C3: resuming a state whose pending interruptions were all approved
executes each approved tool exactly once (the trace holds exactly one
execution event per pending call id) and then finishes on the next
model response; the resolved state survives a serialize/deserialize
round trip unchanged, and re-resuming it executes no tool at all —
resumption is idempotent. -/
theorem resume_approved_executes_once :
    ∀ (cfg : Loop.RunConfig) (st : Loop.RunState) (ag : Loop.Agent)
      (m : String),
      Loop.findAgent cfg st.currentAgent = some ag →
      1 ≤ st.turnCount →
      st.turnCount + 1 ≤ cfg.maxTurns →
      st.pendingInterruptions ≠ [] →
      (∀ c ∈ st.pendingInterruptions,
        (ag.tools.find? fun t => t.name == c.name).isSome = true) →
      (∀ c ∈ st.pendingInterruptions,
        Loop.lookupDecision st c.callId = some true) →
      (st.pendingInterruptions.map Loop.ToolCall.callId).Nodup →
      cfg.model { Loop.resolvedState ag st with
          turnCount := st.turnCount + 1 } = .message m →
      ag.validateOutput m = true →
      (ag.outputGuardrails.any fun g => g m) = false →
      (Loop.runFromState cfg st).1 = .finalOutput m ∧
      (∀ c ∈ st.pendingInterruptions,
        ((Loop.runFromState cfg st).2.2.countP
          fun e => e.execOf c.callId) = 1) ∧
      (Loop.deserialize (Loop.serialize (Loop.resolvedState ag st)) =
          some (Loop.resolvedState ag st) ∧
        (Loop.runFromState cfg (Loop.resolvedState ag st)).1 =
          .finalOutput m ∧
        ∀ e ∈ (Loop.runFromState cfg (Loop.resolvedState ag st)).2.2,
          e.isToolExecute = false) := by
  intro cfg st ag m hag hturn hlim hpend hknown happr hnodup hm hv hog
  have hex : ∀ c ∈ st.pendingInterruptions,
      (Loop.planCall ag st c).isExec = true := fun c hc =>
    Loop.planCall_isExec_of_approved ag st c (hknown c hc) (happr c hc)
  have hres := Loop.resolveStep_approved ag st hex
  obtain ⟨k, hk⟩ : ∃ k,
      cfg.maxTurns + 1 - (Loop.resolvedState ag st).turnCount = k + 1 :=
    ⟨cfg.maxTurns - st.turnCount, by simp [Loop.resolvedState]; omega⟩
  have hagR : Loop.findAgent cfg
      (Loop.resolvedState ag st).currentAgent = some ag := hag
  have hstep := Loop.stepTurn_message cfg (Loop.resolvedState ag st) ag m
    hlim hagR
    (fun h0 => absurd (show st.turnCount = 0 from h0) (by omega))
    hm hv hog
  constructor
  · unfold Loop.runFromState
    simp only [hag, hres, List.isEmpty_nil, if_true]
    rw [hk, Loop.loop_succ_finished cfg k _ _ _ _ hstep]
  constructor
  · intro c hc
    unfold Loop.runFromState
    simp only [hag, hres, List.isEmpty_nil, if_true]
    rw [hk, Loop.loop_succ_finished cfg k _ _ _ _ hstep]
    simp only
    rw [List.countP_append, List.countP_append, List.countP_append,
      Loop.countP_execOf_approvals,
      Loop.countP_execOf_execs (Loop.toolNameOf ag) st.pendingInterruptions
        c.callId (List.mem_map_of_mem Loop.ToolCall.callId hc) hnodup,
      Loop.countP_execOf_guards, Loop.countP_execOf_modelCall]
  · refine ⟨Loop.deserialize_serialize _, ?_, ?_⟩
    · unfold Loop.runFromState
      simp only [hagR,
        Loop.resolveStep_nil ag (Loop.resolvedState ag st) rfl,
        List.isEmpty_nil, if_true]
      rw [hk, Loop.loop_succ_finished cfg k _ _ _ _ hstep]
    · unfold Loop.runFromState
      simp only [hagR,
        Loop.resolveStep_nil ag (Loop.resolvedState ag st) rfl,
        List.isEmpty_nil, if_true]
      rw [hk, Loop.loop_succ_finished cfg k _ _ _ _ hstep]
      intro e he
      simp only [List.nil_append] at he
      rcases List.mem_append.mp he with h2 | h2
      · split at h2
        · rcases List.mem_map.mp h2 with ⟨i, _, rfl⟩
          rfl
        · exact absurd h2 (List.not_mem_nil e)
      · rcases List.mem_singleton.mp h2 with rfl
        rfl

/-- C3 witness: a concrete suspended state with one approved pending
call finishes with the model's answer, shows exactly one execution of
call id "c1" in the trace, and its resolved state round-trips through
serialization. -/
theorem resume_approved_executes_once_witness :
    (Loop.runFromState Loop.demoCfgResume Loop.demoSuspended).1 =
      .finalOutput "done" ∧
    ((Loop.runFromState Loop.demoCfgResume Loop.demoSuspended).2.2.countP
      fun e => e.execOf "c1") = 1 ∧
    Loop.deserialize (Loop.serialize
      (Loop.resolvedState Loop.demoAgent Loop.demoSuspended)) =
        some (Loop.resolvedState Loop.demoAgent Loop.demoSuspended) := by
  have h := resume_approved_executes_once Loop.demoCfgResume
    Loop.demoSuspended Loop.demoAgent "done" rfl (by decide) (by decide)
    (by decide) (by decide) (by decide) (by decide) rfl rfl rfl
  exact ⟨h.1, h.2.1 Loop.demoCall (by decide), h.2.2.1⟩
